import Mathlib

/-!
Verification of `pkg/flare/archive.go` (diagnostic-bundle creation for the
datadog agent fork).  The development shallowly embeds the pure content of the
file: the registered credential replacer (`otherAPIKeysRx` /
`otherAPIKeysReplacer`), the config/log file-name classification
(`getFirstSuffix`, `cnfFileExtRx`, the walk predicates), the directory-name
sanitizer (`cleanDirectoryName`), the parent-permission walk
(`addParentPerms`), the error flow of `createArchive`, and the byte-level
behaviour of the collectors with respect to the redacting writer.
-/

namespace Flare

/-! ## The registered API-key replacer

The source registers one replacer on every redacting writer
(`newRedactingWriter`):

  otherAPIKeysRx = `api_key\s*:\s*[a-zA-Z0-9\\\/\^\]\[\(\){}!|%:;"~><=#@$_\-\+]+`

with the constant replacement `api_key: ********`.  We embed the regex as a
deterministic matcher: the pattern's pieces are forced (space characters are
neither `:` nor members of the character class, so the RE2 automaton has a
single viable path), hence the literal scan below computes exactly the
leftmost match and its greedy extent.  `scrubL` is Go's
`ReplaceAll`: repeatedly find the leftmost match, emit the replacement,
resume after the match. -/

/-- RE2's `\s` character class (ASCII): tab, newline, form feed,
carriage return, space. -/
def isSpc (c : Char) : Bool :=
  c = ' ' || c = '\t' || c = '\n' || c = '\x0c' || c = '\r'

/-- The character class of `otherAPIKeysRx`: alphanumerics plus the listed
specials.  `*` is deliberately absent (the source comments that the class must
not re-match already-redacted text). -/
def isCls (c : Char) : Bool :=
  c.isAlphanum ||
    c = '\\' || c = '/' || c = '^' || c = ']' || c = '[' ||
    c = '(' || c = ')' || c = '\x7b' || c = '\x7d' || c = '!' ||
    c = '|' || c = '%' || c = ':' || c = ';' || c = '\"' ||
    c = '~' || c = '>' || c = '<' || c = '=' || c = '#' ||
    c = '@' || c = '$' || c = '_' || c = '-' || c = '+'

/-- The literal head of the pattern. -/
def keyLit : List Char := ['a', 'p', 'i', '_', 'k', 'e', 'y']

/-- The fixed replacement produced by `otherAPIKeysReplacer.ReplFunc`. -/
def maskChars : List Char :=
  ['a', 'p', 'i', '_', 'k', 'e', 'y', ':', ' ',
   '*', '*', '*', '*', '*', '*', '*', '*']

/-- Matcher states for `api_key\s*:\s*[class]+`: the remaining literal,
then spaces-before-colon, then spaces-before-value. -/
inductive MSt where
  | lit (cs : List Char)
  | sp1
  | sp2
  deriving DecidableEq

/-- One-character step outcome of the matcher. -/
inductive StepRes where
  | fail
  | accept
  | cont (s : MSt)
  deriving DecidableEq

/-- One-character transition of the pattern matcher. -/
def mstep : MSt → Char → StepRes
  | MSt.lit [], _ => StepRes.fail
  | MSt.lit [x], c => if c = x then StepRes.cont MSt.sp1 else StepRes.fail
  | MSt.lit (x :: y :: xs), c =>
      if c = x then StepRes.cont (MSt.lit (y :: xs)) else StepRes.fail
  | MSt.sp1, c =>
      if isSpc c then StepRes.cont MSt.sp1
      else if c = ':' then StepRes.cont MSt.sp2
      else StepRes.fail
  | MSt.sp2, c =>
      if isSpc c then StepRes.cont MSt.sp2
      else if isCls c then StepRes.accept
      else StepRes.fail

/-- Run the matcher from state `s`: on acceptance (first class character of
the value) return the remainder after the greedy `[class]+` run. -/
def runM : MSt → List Char → Option (List Char)
  | _, [] => none
  | s, c :: rest =>
    match mstep s c with
    | StepRes.fail => none
    | StepRes.accept => some (rest.dropWhile isCls)
    | StepRes.cont s' => runM s' rest

/-- Does `otherAPIKeysRx` match at the head of `l`?  On success, return what
follows the (leftmost-starting, greedy) match. -/
def matchAt (l : List Char) : Option (List Char) :=
  runM (MSt.lit keyLit) l

theorem dropWhile_len_le (p : Char → Bool) :
    ∀ l : List Char, (l.dropWhile p).length ≤ l.length := by
  intro l
  induction l with
  | nil => simp
  | cons c rest ih =>
    by_cases h : p c
    · simp only [List.dropWhile_cons, h, if_true, List.length_cons]
      omega
    · simp [List.dropWhile_cons, h]

theorem runM_length_lt : ∀ s l r, runM s l = some r → r.length < l.length := by
  intro s l
  induction l generalizing s with
  | nil => intro r h; simp [runM] at h
  | cons c rest ih =>
    intro r h
    simp only [runM] at h
    cases hs : mstep s c with
    | fail => rw [hs] at h; exact absurd h (by simp)
    | accept =>
      rw [hs] at h
      simp only [Option.some.injEq] at h
      subst h
      have := dropWhile_len_le isCls rest
      simp only [List.length_cons]
      omega
    | cont s' =>
      rw [hs] at h
      have := ih s' r h
      simp only [List.length_cons]
      omega

theorem matchAt_some_length {l r : List Char} (h : matchAt l = some r) :
    r.length < l.length :=
  runM_length_lt _ l r h

theorem matchAt_nil : matchAt [] = none := rfl

/-- Fuelled form of Go's `ReplaceAll` scan for the replacer. -/
def scrubGo : Nat → List Char → List Char
  | 0, l => l
  | Nat.succ n, l =>
    match matchAt l with
    | some rem => maskChars ++ scrubGo n rem
    | none =>
      match l with
      | [] => []
      | c :: rest => c :: scrubGo n rest

/-- `otherAPIKeysRx.ReplaceAll(l, "api_key: ********")`: the byte
transformation the registered replacer applies to one written buffer. -/
def scrubL (l : List Char) : List Char := scrubGo l.length l

theorem scrubGo_nil : ∀ n, scrubGo n [] = [] := by
  intro n
  cases n with
  | zero => rfl
  | succ n => rfl

theorem scrubGo_fuel : ∀ n m l, l.length ≤ n → l.length ≤ m →
    scrubGo n l = scrubGo m l := by
  intro n
  induction n with
  | zero =>
    intro m l hn _
    have : l = [] := List.eq_nil_of_length_eq_zero (Nat.le_zero.mp hn)
    subst this
    simp [scrubGo_nil]
  | succ n ih =>
    intro m l hn hm
    cases l with
    | nil => simp [scrubGo_nil]
    | cons c rest =>
      have hm1 : ∃ m', m = m' + 1 := by
        cases m with
        | zero => simp at hm
        | succ m' => exact ⟨m', rfl⟩
      obtain ⟨m', rfl⟩ := hm1
      cases hma : matchAt (c :: rest) with
      | some rem =>
        have hlen := matchAt_some_length hma
        have h1 : rem.length ≤ n := by
          simp only [List.length_cons] at hn hlen ⊢
          omega
        have h2 : rem.length ≤ m' := by
          simp only [List.length_cons] at hm hlen ⊢
          omega
        simp only [scrubGo, hma]
        rw [ih m' rem h1 h2]
      | none =>
        have h1 : rest.length ≤ n := by
          simp only [List.length_cons] at hn; omega
        have h2 : rest.length ≤ m' := by
          simp only [List.length_cons] at hm; omega
        simp only [scrubGo, hma]
        rw [ih m' rest h1 h2]

theorem scrubL_nil : scrubL [] = [] := rfl

theorem scrubL_pos {l rem : List Char} (h : matchAt l = some rem) :
    scrubL l = maskChars ++ scrubL rem := by
  cases l with
  | nil => simp [matchAt, runM] at h
  | cons c rest =>
    unfold scrubL
    simp only [List.length_cons, scrubGo, h]
    have hlen := matchAt_some_length h
    simp only [List.length_cons] at hlen
    rw [scrubGo_fuel rest.length rem.length rem (by omega) (le_refl _)]

theorem scrubL_neg {c : Char} {rest : List Char}
    (h : matchAt (c :: rest) = none) :
    scrubL (c :: rest) = c :: scrubL rest := by
  unfold scrubL
  simp only [List.length_cons, scrubGo, h]

/-! ## Idempotence of the replacer

`scrubL` output never contains a match of the pattern again: replacements end
in `*` (not in the class and not a space), every replacement block starts with
the literal itself, and the scan already replaced every leftmost match.  The
proof runs the matcher over the structure of the scan. -/

/-- The matcher states that can actually occur while running from the initial
state: suffixes of the literal, then the two space-skipping states. -/
def ReachSt (s : MSt) : Prop :=
  s = MSt.lit keyLit ∨
  s = MSt.lit ['p', 'i', '_', 'k', 'e', 'y'] ∨
  s = MSt.lit ['i', '_', 'k', 'e', 'y'] ∨
  s = MSt.lit ['_', 'k', 'e', 'y'] ∨
  s = MSt.lit ['k', 'e', 'y'] ∨
  s = MSt.lit ['e', 'y'] ∨
  s = MSt.lit ['y'] ∨
  s = MSt.sp1 ∨ s = MSt.sp2

theorem reach_start : ReachSt (MSt.lit keyLit) := Or.inl rfl

theorem reach_step {s s' : MSt} {c : Char}
    (hs : ReachSt s) (h : mstep s c = StepRes.cont s') : ReachSt s' := by
  rcases hs with h1 | h1 | h1 | h1 | h1 | h1 | h1 | h1 | h1 <;> subst h1 <;>
    simp only [mstep, keyLit] at h <;>
    repeat' split at h
  all_goals cases h <;> simp [ReachSt, keyLit]

/-- Running the matcher from any reachable state other than `sp2` over the
replacement block fails, whatever follows the block. -/
theorem runM_mask_not_sp2 {s : MSt} (hs : ReachSt s) (hne : s ≠ MSt.sp2) :
    ∀ z, runM s (maskChars ++ z) = none := by
  intro z
  rcases hs with h | h | h | h | h | h | h | h | h <;> subst h <;>
    first
      | (exact absurd rfl hne)
      | simp [maskChars, runM, mstep, isSpc, isCls, keyLit]

theorem matchAt_mask_append (z : List Char) : matchAt (maskChars ++ z) = none :=
  runM_mask_not_sp2 reach_start (by simp) z

theorem matchAt_cons_ne {c : Char} (h : c ≠ 'a') (w : List Char) :
    matchAt (c :: w) = none := by
  simp [matchAt, runM, keyLit, mstep, h]

theorem matchAt_head {l r : List Char} (h : matchAt l = some r) :
    ∃ l', l = 'a' :: l' := by
  cases l with
  | nil => simp [matchAt, runM] at h
  | cons c rest =>
    refine ⟨rest, ?_⟩
    by_cases hc : c = 'a'
    · rw [hc]
    · rw [matchAt_cons_ne hc rest] at h
      cases h

theorem suffix_self (t : List Char) : t <:+ t := ⟨[], rfl⟩

theorem suffix_cons_of {a' a : List Char} (h : a' <:+ a) (c : Char) :
    a' <:+ c :: a := by
  obtain ⟨u, hu⟩ := h
  exact ⟨c :: u, by simp [hu]⟩

theorem suffix_cons_cases {t w : List Char} {c : Char} (h : t <:+ c :: w) :
    t = c :: w ∨ t <:+ w := by
  obtain ⟨u, hu⟩ := h
  cases u with
  | nil => left; simpa using hu
  | cons x u' =>
    right
    refine ⟨u', ?_⟩
    injection hu with _ h2

theorem suffix_append_cases {t : List Char} :
    ∀ {a b : List Char}, t <:+ a ++ b →
      t <:+ b ∨ ∃ a', a' <:+ a ∧ a' ≠ [] ∧ t = a' ++ b := by
  intro a
  induction a with
  | nil => intro b h; left; simpa using h
  | cons c a'' ih =>
    intro b h
    rcases suffix_cons_cases (show t <:+ c :: (a'' ++ b) by simpa using h)
      with h1 | h1
    · right
      exact ⟨c :: a'', suffix_self _, by simp, by rw [h1, List.cons_append]⟩
    · rcases ih h1 with h2 | ⟨a', ha1, ha2, ha3⟩
      · left; exact h2
      · right; exact ⟨a', suffix_cons_of ha1 c, ha2, ha3⟩

theorem mem_of_suffix_head {c : Char} {r w : List Char} (h : c :: r <:+ w) :
    c ∈ w := by
  obtain ⟨u, hu⟩ := h
  rw [← hu]
  exact List.mem_append_right u (List.mem_cons_self c r)

theorem mask_tail_no_a : ∀ c ∈ List.tail maskChars, c ≠ 'a' := by decide

theorem mask_suffix_head {a' : List Char} (h : a' <:+ maskChars)
    (hne : a' ≠ []) :
    a' = maskChars ∨ ∃ c r, a' = c :: r ∧ c ≠ 'a' := by
  rcases suffix_cons_cases (show a' <:+ 'a' :: List.tail maskChars from h)
    with h1 | h1
  · left; exact h1
  · right
    cases a' with
    | nil => exact absurd rfl hne
    | cons c r => exact ⟨c, r, rfl, mask_tail_no_a c (mem_of_suffix_head h1)⟩

/-- Simulation: if the matcher accepts somewhere along the scrubbed output,
it would already have accepted along the input. -/
theorem runM_scrub_sim :
    ∀ n l, l.length ≤ n → ∀ s, ReachSt s →
      (runM s (scrubL l)).isSome → (runM s l).isSome := by
  intro n
  induction n with
  | zero =>
    intro l hn s _ hsome
    have : l = [] := List.eq_nil_of_length_eq_zero (Nat.le_zero.mp hn)
    subst this
    rw [scrubL_nil] at hsome
    simp [runM] at hsome
  | succ n ih =>
    intro l hn s hs hsome
    cases hma : matchAt l with
    | some rem =>
      rw [scrubL_pos hma] at hsome
      by_cases hsp : s = MSt.sp2
      · subst hsp
        obtain ⟨l', rfl⟩ := matchAt_head hma
        simp [runM, mstep, isSpc, isCls]
      · rw [runM_mask_not_sp2 hs hsp] at hsome
        simp at hsome
    | none =>
      cases l with
      | nil =>
        rw [scrubL_nil] at hsome
        simp [runM] at hsome
      | cons c rest =>
        rw [scrubL_neg hma] at hsome
        simp only [runM] at hsome ⊢
        cases hst : mstep s c with
        | fail => rw [hst] at hsome; simp at hsome
        | accept => simp
        | cont s' =>
          rw [hst] at hsome
          have hlen : rest.length ≤ n := by
            simp only [List.length_cons] at hn; omega
          exact ih rest hlen s' (reach_step hs hst) hsome

/-- No suffix of the scrubbed output matches the pattern. -/
theorem scrubL_noMatch_aux :
    ∀ n l, l.length ≤ n → ∀ t, t <:+ scrubL l → matchAt t = none := by
  intro n
  induction n with
  | zero =>
    intro l hn t ht
    have : l = [] := List.eq_nil_of_length_eq_zero (Nat.le_zero.mp hn)
    subst this
    rw [scrubL_nil] at ht
    obtain ⟨u, hu⟩ := ht
    have : t = [] := by
      cases t with
      | nil => rfl
      | cons x xs => simp at hu
    subst this
    exact matchAt_nil
  | succ n ih =>
    intro l hn t ht
    cases hma : matchAt l with
    | some rem =>
      rw [scrubL_pos hma] at ht
      have hrem : rem.length ≤ n := by
        have := matchAt_some_length hma
        omega
      rcases suffix_append_cases ht with h1 | ⟨a', ha1, ha2, ha3⟩
      · exact ih rem hrem t h1
      · rcases mask_suffix_head ha1 ha2 with h2 | ⟨c, r, h2, hc⟩
        · subst h2; rw [ha3]; exact matchAt_mask_append _
        · rw [ha3, h2]
          exact matchAt_cons_ne hc _
    | none =>
      cases l with
      | nil =>
        rw [scrubL_nil] at ht
        obtain ⟨u, hu⟩ := ht
        have : t = [] := by
          cases t with
          | nil => rfl
          | cons x xs => simp at hu
        subst this
        exact matchAt_nil
      | cons c rest =>
        rw [scrubL_neg hma] at ht
        rcases suffix_cons_cases ht with h1 | h1
        · subst h1
          cases hmt : matchAt (c :: scrubL rest) with
          | none => rfl
          | some r =>
            have h2 : (runM (MSt.lit keyLit) (scrubL (c :: rest))).isSome := by
              rw [scrubL_neg hma]
              simp [matchAt] at hmt
              simp [hmt]
            have h3 := runM_scrub_sim (n + 1) (c :: rest) hn
              (MSt.lit keyLit) reach_start h2
            rw [show runM (MSt.lit keyLit) (c :: rest) = matchAt (c :: rest)
              from rfl, hma] at h3
            simp at h3
        · have hlen : rest.length ≤ n := by
            simp only [List.length_cons] at hn; omega
          exact ih rest hlen t h1

theorem scrubL_noMatch (l : List Char) :
    ∀ t, t <:+ scrubL l → matchAt t = none :=
  scrubL_noMatch_aux l.length l (le_refl _)

theorem scrubL_fixed_of_noMatch :
    ∀ l, (∀ t, t <:+ l → matchAt t = none) → scrubL l = l := by
  intro l
  induction l with
  | nil => intro _; exact scrubL_nil
  | cons c rest ih =>
    intro h
    have hma : matchAt (c :: rest) = none := h (c :: rest) (suffix_self _)
    rw [scrubL_neg hma]
    rw [ih (fun t ht => h t (suffix_cons_of ht c))]

/-- C4: for every input text, applying the registered API-key replacer
(`otherAPIKeysReplacer`, the full list registered by `newRedactingWriter`)
twice yields the same result as applying it once: re-applying redaction to
already-redacted text leaves it unchanged. -/
theorem C4_scrub_idempotent : ∀ l : List Char, scrubL (scrubL l) = scrubL l :=
  fun l => scrubL_fixed_of_noMatch _ (scrubL_noMatch l)

/-! ## Masking of `api_key: <value>` occurrences (C5) -/

/-- The literal text `api_key: ` that opens a spec-level pattern occurrence. -/
def keyColSp : List Char := ['a', 'p', 'i', '_', 'k', 'e', 'y', ':', ' ']

theorem spc_not_cls {c : Char} (h : isSpc c = true) : isCls c = false := by
  simp only [isSpc, Bool.or_eq_true, decide_eq_true_eq] at h
  rcases h with ((((h | h) | h) | h) | h) <;> subst h <;> decide

theorem cls_not_spc {c : Char} (h : isCls c = true) : isSpc c = false := by
  cases hs : isSpc c with
  | false => rfl
  | true => rw [spc_not_cls hs] at h; cases h

theorem matchAt_keyOcc {d : Char} (hd : isCls d = true) (v' suf : List Char) :
    (matchAt (keyColSp ++ (d :: v') ++ suf)).isSome := by
  have hspc := cls_not_spc hd
  simp [matchAt, keyColSp, keyLit, runM, mstep, hspc, hd,
    show isSpc ':' = false from rfl, show isSpc ' ' = true from rfl]

theorem inf_cons {w l : List Char} (h : w <:+: l) (c : Char) :
    w <:+: c :: l := by
  obtain ⟨s, t, hst⟩ := h
  exact ⟨c :: s, t, by simp [← hst]⟩

theorem mask_inf_of_match :
    ∀ n l, l.length ≤ n → (∃ t, t <:+ l ∧ (matchAt t).isSome) →
      maskChars <:+: scrubL l := by
  intro n
  induction n with
  | zero =>
    intro l hn hex
    have : l = [] := List.eq_nil_of_length_eq_zero (Nat.le_zero.mp hn)
    subst this
    obtain ⟨t, ⟨u, hu⟩, hsome⟩ := hex
    have : t = [] := by
      cases t with
      | nil => rfl
      | cons x xs => simp at hu
    subst this
    rw [matchAt_nil] at hsome
    cases hsome
  | succ n ih =>
    intro l hn hex
    cases hma : matchAt l with
    | some rem =>
      rw [scrubL_pos hma]
      exact ⟨[], scrubL rem, rfl⟩
    | none =>
      cases l with
      | nil =>
        obtain ⟨t, ⟨u, hu⟩, hsome⟩ := hex
        have : t = [] := by
          cases t with
          | nil => rfl
          | cons x xs => simp at hu
        subst this
        rw [matchAt_nil] at hsome
        cases hsome
      | cons c rest =>
        rw [scrubL_neg hma]
        obtain ⟨t, ht, hsome⟩ := hex
        rcases suffix_cons_cases ht with h1 | h1
        · subst h1
          rw [hma] at hsome
          cases hsome
        · have hlen : rest.length ≤ n := by
            simp only [List.length_cons] at hn; omega
          exact inf_cons (ih rest hlen ⟨t, h1, hsome⟩) c

/-- C5 (amended): for every input containing an occurrence of the pattern
`api_key: <value>` whose value starts with a character of the replacer's
class, the redacted output contains the literal masked form
`api_key: ********`.  (The original claim's stronger conclusion — that the
output never contains the value anywhere — fails, see the counterexample.) -/
theorem C5_amended_mask (pre v' suf : List Char) (d : Char)
    (hd : isCls d = true) :
    maskChars <:+: scrubL (pre ++ keyColSp ++ (d :: v') ++ suf) := by
  apply mask_inf_of_match (pre ++ keyColSp ++ (d :: v') ++ suf).length _
    (le_refl _)
  refine ⟨keyColSp ++ (d :: v') ++ suf, ⟨pre, by simp⟩, ?_⟩
  exact matchAt_keyOcc hd v' suf

/-- C5 counterexample: the input `api_key: a a` contains the pattern
occurrence `api_key: a` with nonempty value `a`, yet the redacted output
`api_key: ******** a` still contains that value. -/
theorem C5_counterexample :
    (("api_key: a a".data : List Char) =
      [] ++ (keyColSp ++ ['a']) ++ [' ', 'a']) ∧
    ['a'] ≠ ([] : List Char) ∧ (∀ c ∈ ['a'], isCls c = true) ∧
    ['a'] <:+: scrubL ("api_key: a a".data) := by
  refine ⟨by decide, by decide, by decide, by decide⟩

/-- Witness instantiating `C5_amended_mask` at a concrete occurrence. -/
theorem C5_witness :
    isCls 'b' = true ∧
    maskChars <:+: scrubL ([] ++ keyColSp ++ ('b' :: []) ++ []) :=
  ⟨by decide, C5_amended_mask [] [] [] 'b' (by decide)⟩

/-! ## Which collectors write through the redacting writer (C1)

Collectors that open a `RedactingWriter` (`newRedactingWriter`) write
`pipeline(bytes)`; `writeRegistryJSON`, `writeVersionHistory`,
`writeInstallInfo` open the destination with `os.OpenFile` and `io.Copy` the
source bytes, and `writeLogFiles` copies with `util.CopyFileAll` — none of
those four touch the redaction pipeline. -/

/-- Modelled from the spec: the writer's built-in credential scrubber (the
`log/strip.go` implementation lives outside this file) is an arbitrary byte
transformation `ext`; `newRedactingWriter` registers `otherAPIKeysReplacer`
after it, so the registered replacer is applied last. -/
def redactingWriterOut (ext : List Char → List Char) (data : List Char) :
    List Char :=
  scrubL (ext data)

/-- `writeStatusFileLocal`: bytes written to `status.log` go through the
redacting writer. -/
def writeStatusFileLocalContent (ext : List Char → List Char)
    (data : List Char) : List Char :=
  redactingWriterOut ext data

/-- `writeRegistryJSON`: `io.Copy(file, original)` — the bundle copy of
`registry.json` is byte-identical to the source file. -/
def writeRegistryJSONContent (original : List Char) : List Char := original

/-- `writeVersionHistory`: `io.Copy(file, original)`. -/
def writeVersionHistoryContent (original : List Char) : List Char := original

/-- `writeInstallInfo`: `io.Copy(zipped, original)`. -/
def writeInstallInfoContent (original : List Char) : List Char := original

/-- `writeLogFiles`: `util.CopyFileAll(src, dst)` — log files are copied
byte-identically. -/
def copyLogFileContent (original : List Char) : List Char := original

/-- A byte string that passed through the redacting pipeline: no suffix still
matches the registered replacer's pattern. -/
def fullyScrubbed (l : List Char) : Prop :=
  ∀ t, t <:+ l → matchAt t = none

/-- C1 counterexample: a `registry.json` source containing a live credential
is written to the bundle byte-identically by `writeRegistryJSON`; the bytes on
disk still match the credential pattern, so they did not pass through the
scrubbing pipeline. -/
theorem C1_counterexample :
    writeRegistryJSONContent ("api_key: secret".data) = "api_key: secret".data
    ∧ ¬ fullyScrubbed (writeRegistryJSONContent ("api_key: secret".data)) := by
  refine ⟨rfl, fun h => ?_⟩
  have h2 := h ("api_key: secret".data) (suffix_self _)
  exact absurd h2 (by decide)

/-- C1 (amended): collectors that write through `newRedactingWriter` (status,
config-check, config files, expvar, …) produce fully scrubbed bytes, but
`writeRegistryJSON`, `writeVersionHistory`, `writeInstallInfo` and the log
copies of `writeLogFiles` write the source bytes verbatim, bypassing the
redaction pipeline. -/
theorem C1_amended_redaction_bypass :
    (∀ ext data, fullyScrubbed (writeStatusFileLocalContent ext data)) ∧
    (∀ d, writeRegistryJSONContent d = d) ∧
    (∀ d, writeVersionHistoryContent d = d) ∧
    (∀ d, writeInstallInfoContent d = d) ∧
    (∀ d, copyLogFileContent d = d) :=
  ⟨fun ext data => scrubL_noMatch (ext data),
   fun _ => rfl, fun _ => rfl, fun _ => rfl, fun _ => rfl⟩

/-! ## File-name classification (`getFirstSuffix`, `cnfFileExtRx`,
`walkConfigFilePaths`, `writeLogFiles`) -/

/-- Go `filepath.Ext`: scan the name from its end; stop at a path separator;
return the suffix beginning at the final dot (empty if none).  `acc` carries
the characters already passed, in original order. -/
def extGoAux : List Char → List Char → List Char
  | [], _ => []
  | c :: rest, acc =>
    if c = '/' then []
    else if c = '.' then '.' :: acc
    else extGoAux rest (c :: acc)

def extGo (l : List Char) : List Char := extGoAux l.reverse []

/-- Go `strings.TrimSuffix`. -/
def trimSuffixGo (l suf : List Char) : List Char :=
  if suf <:+ l then l.take (l.length - suf.length) else l

/-- `getFirstSuffix(s) = filepath.Ext(strings.TrimSuffix(s, filepath.Ext(s)))`:
the extension before the final one. -/
def getFirstSuffixGo (l : List Char) : List Char :=
  extGo (trimSuffixGo l (extGo l))

/-- Does `(?i)\.ya?ml` match at the head of `l`? -/
def yamlHead (l : List Char) : Bool :=
  match l.map Char.toLower with
  | '.' :: 'y' :: 'm' :: 'l' :: _ => true
  | '.' :: 'y' :: 'a' :: 'm' :: 'l' :: _ => true
  | _ => false

/-- `cnfFileExtRx.Match`: RE2 search is unanchored, so the pattern may match
at any position of the argument. -/
def cnfFileExtMatch (l : List Char) : Bool := l.tails.any yamlHead

/-- The file decision of the `walkConfigFilePaths` callback for a regular
file: skip names with final extension `.example`; copy when the first suffix
or the extension matches `cnfFileExtRx`. -/
def shouldCopyConf (name : List Char) : Bool :=
  if extGo name = ".example".data then false
  else cnfFileExtMatch (getFirstSuffixGo name) || cnfFileExtMatch (extGo name)

/-- The file decision of the `writeLogFiles` walk callback. -/
def isLogName (name : List Char) : Bool :=
  decide (extGo name = ".log".data) ||
    decide (getFirstSuffixGo name = ".log".data)

/-- C7: in the config-file walk every regular file whose final extension is
`.example` is skipped; `foo.yaml` is copied via the final-extension check,
`foo.yaml.bak` via the first-suffix check, and `name.bak` (neither) is not
copied. -/
theorem C7_config_classification :
    (∀ name : List Char,
      extGo name = ".example".data → shouldCopyConf name = false) ∧
    shouldCopyConf "foo.yaml".data = true ∧
    shouldCopyConf "foo.yaml.bak".data = true ∧
    shouldCopyConf "name.bak".data = false := by
  refine ⟨fun name h => ?_, by decide, by decide, by decide⟩
  simp [shouldCopyConf, h]

/-- Witness for `C7_config_classification` at the concrete name
`x.example`. -/
theorem C7_witness :
    extGo "x.example".data = ".example".data ∧
    shouldCopyConf "x.example".data = false :=
  ⟨by decide, C7_config_classification.1 ("x.example".data) (by decide)⟩

/-- C10: the YAML classifier is an unanchored, case-insensitive substring
match: `foo.yaml2` and `foo.YML-old` are classified as config files and
copied, and in general any non-`.example` name whose extension merely
contains the pattern is copied. -/
theorem C10_unanchored_match :
    shouldCopyConf "foo.yaml2".data = true ∧
    shouldCopyConf "foo.YML-old".data = true ∧
    (∀ name : List Char, ¬ extGo name = ".example".data →
      cnfFileExtMatch (extGo name) = true → shouldCopyConf name = true) := by
  refine ⟨by decide, by decide, fun name h1 h2 => ?_⟩
  simp [shouldCopyConf, h1, h2]

/-- Witness for `C10_unanchored_match` at the concrete name `a.yaml2`. -/
theorem C10_witness :
    ¬ extGo "a.yaml2".data = ".example".data ∧
    cnfFileExtMatch (extGo "a.yaml2".data) = true ∧
    shouldCopyConf "a.yaml2".data = true :=
  ⟨by decide, by decide,
    C10_unanchored_match.2.2 ("a.yaml2".data) (by decide) (by decide)⟩

/-! ## `cleanDirectoryName` (C8) -/

/-- The complement of `directoryNameFilter = [^a-zA-Z0-9_-]+`. -/
def isDirNameOK (c : Char) : Bool :=
  ('a' ≤ c && c ≤ 'z') || ('A' ≤ c && c ≤ 'Z') ||
    ('0' ≤ c && c ≤ '9') || c = '_' || c = '-'

/-- `directoryNameFilter.ReplaceAllString(name, "_")`: each maximal run of
characters outside the class becomes a single underscore.  The flag records
whether the previous character was inside such a run. -/
def dirNameFilterAux : Bool → List Char → List Char
  | _, [] => []
  | inBad, c :: rest =>
    if isDirNameOK c then c :: dirNameFilterAux false rest
    else if inBad then dirNameFilterAux true rest
    else '_' :: dirNameFilterAux true rest

/-- `cleanDirectoryName`: filter, then truncate to `directoryNameMaxSize`
(32).  The filtered string is pure ASCII, so Go's byte slicing agrees with
character truncation. -/
def cleanDirectoryNameGo (l : List Char) : List Char :=
  let filteredName := dirNameFilterAux false l
  if filteredName.length > 32 then filteredName.take 32 else filteredName

theorem dirNameFilterAux_ok :
    ∀ l b c, c ∈ dirNameFilterAux b l → isDirNameOK c = true := by
  intro l
  induction l with
  | nil => intro b c h; simp [dirNameFilterAux] at h
  | cons x rest ih =>
    intro b c h
    simp only [dirNameFilterAux] at h
    by_cases hx : isDirNameOK x
    · rw [if_pos hx] at h
      rcases List.mem_cons.mp h with h1 | h1
      · rw [h1]; exact hx
      · exact ih false c h1
    · rw [if_neg hx] at h
      cases b with
      | true => exact ih true c (by simpa using h)
      | false =>
        rcases List.mem_cons.mp (by simpa using h) with h1 | h1
        · rw [h1]; decide
        · exact ih true c h1

/-- C8: for every input hostname, the sanitized directory name is at most 32
characters and consists only of characters from `[A-Za-z0-9_-]`. -/
theorem C8_clean_directory_name :
    ∀ l : List Char, (cleanDirectoryNameGo l).length ≤ 32 ∧
      ∀ c ∈ cleanDirectoryNameGo l, isDirNameOK c = true := by
  intro l
  unfold cleanDirectoryNameGo
  by_cases h : (dirNameFilterAux false l).length > 32
  · rw [if_pos h]
    constructor
    · rw [List.length_take]; omega
    · intro c hc
      exact dirNameFilterAux_ok l false c (List.mem_of_mem_take hc)
  · rw [if_neg h]
    exact ⟨by omega, fun c hc => dirNameFilterAux_ok l false c hc⟩

/-! ## HTTP collectors (C3) -/

/-- Outcome of one HTTP GET against a collaborator endpoint. -/
inductive HTTPOutcome where
  | transportErr (msg : List Char)
  | resp (status : Nat) (statusText : List Char) (body : List Char)

/-- `writeHTTPCallContent` (used for `telemetry.log` and
`go-routine-dump.log`): the GET is issued before the target file is created;
a transport error returns the error (no file is written), and a response body
is copied through the redacting writer with no status-code check. -/
def writeHTTPCallContentModel (ext : List Char → List Char)
    (outcome : HTTPOutcome) : Except (List Char) (List Char) :=
  match outcome with
  | HTTPOutcome.transportErr m => Except.error m
  | HTTPOutcome.resp _ _ body => Except.ok (redactingWriterOut ext body)

/-- The trace-agent part of `writeExpVar`: the redacting writer is opened
before the GET; a transport error writes `Error retrieving vars: …` into the
file, a non-200 status writes `Got response …` plus the body, and a 200
response writes the re-rendered body (`render` abstracts the JSON-decode /
YAML-marshal of the happy path). -/
def traceAgentExpVarContent (ext render : List Char → List Char)
    (outcome : HTTPOutcome) : Except (List Char) (List Char) :=
  match outcome with
  | HTTPOutcome.transportErr m =>
      Except.ok (redactingWriterOut ext ("Error retrieving vars: ".data ++ m))
  | HTTPOutcome.resp st stx body =>
      if st ≠ 200 then
        Except.ok (redactingWriterOut ext
          ("Got response ".data ++ stx ++ " from /debug/vars:\n".data ++ body))
      else Except.ok (redactingWriterOut ext (render body))

/-- C3 counterexample: on a transport error, `writeHTTPCallContent` returns
the error — the target file is never created and the failure is propagated to
the caller, not written into the bundle. -/
theorem C3_counterexample :
    writeHTTPCallContentModel (fun x => x)
      (HTTPOutcome.transportErr "connection refused".data) =
    Except.error "connection refused".data := rfl

/-- C3 (amended): the trace-agent expvar collector does write the error text
into its file on transport error or non-success status, but
`writeHTTPCallContent` (telemetry, goroutine dump) propagates transport
errors with no file written and copies the response body regardless of the
HTTP status. -/
theorem C3_amended_http_error_handling :
    (∀ ext m, writeHTTPCallContentModel ext (HTTPOutcome.transportErr m) =
      Except.error m) ∧
    (∀ ext st stx body,
      writeHTTPCallContentModel ext (HTTPOutcome.resp st stx body) =
        Except.ok (redactingWriterOut ext body)) ∧
    (∀ ext render m,
      traceAgentExpVarContent ext render (HTTPOutcome.transportErr m) =
        Except.ok (redactingWriterOut ext
          ("Error retrieving vars: ".data ++ m))) ∧
    (∀ ext render stx body,
      traceAgentExpVarContent ext render (HTTPOutcome.resp 500 stx body) =
        Except.ok (redactingWriterOut ext
          ("Got response ".data ++ stx ++ " from /debug/vars:\n".data ++
            body))) :=
  ⟨fun _ _ => rfl, fun _ _ _ _ => rfl, fun _ _ _ => rfl, fun _ _ _ _ => rfl⟩

/-! ## Error flow of `createArchive` (C2)

Each collector invocation is represented by its optional error; the model
reproduces exactly which of those errors `createArchive` returns and which it
only logs.  `writeLocal` is defined outside this file; only its error value
matters here. -/

structure CollectorErrs where
  writeLocalErr : Option String
  statusLocalErr : Option String
  configCheckLocalErr : Option String
  statusErr : Option String
  configCheckErr : Option String
  taggerErr : Option String
  configFilesErr : Option String
  expVarErr : Option String
  systemProbeErr : Option String
  diagnoseErr : Option String
  registryErr : Option String
  versionHistoryErr : Option String
  secretsErr : Option String
  envvarsErr : Option String
  healthErr : Option String
  telemetryErr : Option String
  stackTracesErr : Option String
  dockerInspectErr : Option String
  dockerPsErr : Option String
  typeperfErr : Option String
  counterStringsErr : Option String
  logFilesErr : Option String
  installInfoErr : Option String
  commitErr : Option String

def noErrs : CollectorErrs :=
  ⟨none, none, none, none, none, none, none, none, none, none, none, none,
   none, none, none, none, none, none, none, none, none, none, none, none⟩

/-- One `log.Errorf`/`log.Warnf` call for a failed collector. -/
def optLog (tag : String) (e : Option String) : List String :=
  match e with
  | none => []
  | some m => [tag ++ m]

/-- The log lines produced by the collectors shared between local and
non-local mode, in source order. -/
def tailLogs (e : CollectorErrs) : List String :=
  optLog "Could not write config: " e.configFilesErr ++
  optLog "Could not write exp var: " e.expVarErr ++
  optLog "Could not write system probe exp var stats: " e.systemProbeErr ++
  optLog "Could not write diagnose: " e.diagnoseErr ++
  optLog "Could not write registry.json: " e.registryErr ++
  optLog "Could not write version-history.json: " e.versionHistoryErr ++
  optLog "Could not write secrets: " e.secretsErr ++
  optLog "Could not write env vars: " e.envvarsErr ++
  optLog "Could not write health check: " e.healthErr ++
  optLog "Could not collect telemetry metrics: " e.telemetryErr ++
  optLog "Could not collect go routine stack traces: " e.stackTracesErr ++
  optLog "Could not write docker inspect: " e.dockerInspectErr ++
  optLog "Could not write docker ps: " e.dockerPsErr ++
  optLog "Could not write typeperf data: " e.typeperfErr ++
  optLog "Could not write counter strings: " e.counterStringsErr ++
  optLog "Could not write logs: " e.logFilesErr ++
  optLog "Could not write install_info: " e.installInfoErr ++
  optLog "Could not write permissions.log file: " e.commitErr

/-- `createArchive`: the temp-dir failure aborts; hostname failure falls back
to `unknown`; in local mode the three local stub writes abort on failure; all
remaining collector failures are only logged; the function ends in
`return tempDir, hostname, nil`. -/
def createArchiveModel (isLocal : Bool) (tempDirRes : Except String String)
    (hostnameRes : Except String String) (e : CollectorErrs) :
    Except String (String × String × List String) :=
  match tempDirRes with
  | Except.error err => Except.error err
  | Except.ok tempDir =>
    let hostname0 := match hostnameRes with
      | Except.error _ => "unknown"
      | Except.ok h => h
    let hostname := String.mk (cleanDirectoryNameGo hostname0.data)
    if isLocal then
      match e.writeLocalErr with
      | some err => Except.error err
      | none =>
        match e.statusLocalErr with
        | some err => Except.error err
        | none =>
          match e.configCheckLocalErr with
          | some err => Except.error err
          | none => Except.ok (tempDir, hostname, tailLogs e)
    else
      Except.ok (tempDir, hostname,
        optLog "Could not write status: " e.statusErr ++
        optLog "Could not write config check: " e.configCheckErr ++
        optLog "Could not write tagger list: " e.taggerErr ++ tailLogs e)

/-- C2 counterexample: in local mode, with the temp workspace successfully
created, a failure of the `writeLocal` stub makes `createArchive` return an
error — collector failure can be fatal, contradicting the claim. -/
theorem C2_counterexample :
    createArchiveModel true (Except.ok "/tmp/flare1a2b") (Except.ok "myhost")
      { noErrs with writeLocalErr := some "disk full" } =
    Except.error "disk full" := rfl

/-- C2 (amended): `createArchive` returns an error only when temp-workspace
creation fails or — in local mode only — when one of the three local stub
writes (`writeLocal`, `writeStatusFileLocal`, `writeConfigCheckLocal`)
fails; in non-local mode every collector failure is merely logged. -/
theorem C2_amended_error_flow :
    ∀ (isLocal : Bool) (tempDirRes hostnameRes : Except String String)
      (e : CollectorErrs) (err : String),
      createArchiveModel isLocal tempDirRes hostnameRes e =
        Except.error err →
      tempDirRes = Except.error err ∨
        (isLocal = true ∧
          (e.writeLocalErr = some err ∨ e.statusLocalErr = some err ∨
            e.configCheckLocalErr = some err)) := by
  intro isLocal tempDirRes hostnameRes e err hE
  cases tempDirRes with
  | error e0 =>
    left
    simp only [createArchiveModel] at hE
    have h0 : e0 = err := by simpa using hE
    rw [h0]
  | ok td =>
    right
    simp only [createArchiveModel] at hE
    cases isLocal with
    | false => simp at hE
    | true =>
      refine ⟨rfl, ?_⟩
      simp only [if_true] at hE
      cases h1 : e.writeLocalErr with
      | some m =>
        rw [h1] at hE
        simp only [Except.error.injEq] at hE
        exact Or.inl (by rw [hE])
      | none =>
        rw [h1] at hE
        cases h2 : e.statusLocalErr with
        | some m =>
          rw [h2] at hE
          simp only [Except.error.injEq] at hE
          exact Or.inr (Or.inl (by rw [hE]))
        | none =>
          rw [h2] at hE
          cases h3 : e.configCheckLocalErr with
          | some m =>
            rw [h3] at hE
            simp only [Except.error.injEq] at hE
            exact Or.inr (Or.inr (by rw [hE]))
          | none =>
            rw [h3] at hE
            simp at hE

/-- Witness for `C2_amended_error_flow`: a temp-dir failure propagates. -/
theorem C2_witness :
    createArchiveModel false (Except.error "mkdir failed") (Except.ok "h")
      noErrs = Except.error "mkdir failed" ∧
    ((Except.error "mkdir failed" : Except String String) =
        Except.error "mkdir failed" ∨
      (false = true ∧
        (noErrs.writeLocalErr = some "mkdir failed" ∨
          noErrs.statusLocalErr = some "mkdir failed" ∨
          noErrs.configCheckLocalErr = some "mkdir failed"))) :=
  ⟨rfl, C2_amended_error_flow false (Except.error "mkdir failed")
    (Except.ok "h") noErrs "mkdir failed" rfl⟩

/-! ## Permissions-tracker recording (C6)

The tracker-relevant data flow of `createArchive` is modelled over absolute
Unix paths as component lists (`PathC`, root = `[]`).  At this level
`filepath.Dir` is `List.dropLast`, and the `addParentPerms` loop — walk
upwards, stopping with a final `add` at the root, where `Dir` is the
identity — records every proper prefix down to and including `[]`. -/

abbrev PathC := List String

/-- `addParentPerms(p)` at the component level: the recorded ancestor chain
`Dir(p), Dir²(p), …, []`.  For the root itself the loop's same-length break
records the root once. -/
def addParentPermsC (p : PathC) : List PathC :=
  if p = [] then [[]]
  else (List.range p.length).reverse.map (fun k => p.take k)

/-- One regular file seen by a `filepath.Walk`: path relative to the walk
root, plus its base name (`f.Name()`). -/
structure WalkEntry where
  rel : List String
  name : List Char

/-- One entry of the `SearchPaths` map with the files found under it. -/
structure ConfRoot where
  root : PathC
  entries : List WalkEntry

/-- The filesystem facts `createArchive` consults while recording
permissions.  `usedConfigFiles` holds `config.Datadog.ConfigFileUsed()` and
the derived system-probe path when they exist (`createConfigFiles` stats
them before copying). -/
structure FlareFS where
  authExists : Bool
  authPath : PathC
  confRoots : List ConfRoot
  usedConfigFiles : List PathC
  logDir : PathC
  logEntries : List WalkEntry

def authRecorded (fs : FlareFS) : List PathC :=
  if fs.authExists then [fs.authPath] else []

/-- Files copied by `walkConfigFilePaths`. -/
def confCopied (fs : FlareFS) : List PathC :=
  fs.confRoots.flatMap fun r =>
    (r.entries.filter fun en => shouldCopyConf en.name).map
      fun en => r.root ++ en.rel

/-- Tracker adds of `walkConfigFilePaths`: for every copied file, its source
path plus `addParentPerms` on (the absolute form of) the search root. -/
def confRecorded (fs : FlareFS) : List PathC :=
  fs.confRoots.flatMap fun r =>
    (r.entries.filter fun en => shouldCopyConf en.name).flatMap
      fun en => (r.root ++ en.rel) :: addParentPermsC r.root

/-- Files copied by `writeLogFiles`. -/
def logCopied (fs : FlareFS) : List PathC :=
  (fs.logEntries.filter fun en => isLogName en.name).map
    fun en => fs.logDir ++ en.rel

/-- Tracker adds of `writeLogFiles`: the copied log sources, then — whenever
the tracker map is nonempty at that point — `addParentPerms` on the log
directory, whether or not any log file was copied. -/
def logRecorded (fs : FlareFS) : List PathC :=
  logCopied fs ++
    (if authRecorded fs ++ confRecorded fs ++ fs.usedConfigFiles ++
        logCopied fs ≠ [] then
      addParentPermsC fs.logDir
    else [])

/-- Every path added to `permsInfos` during one `createArchive` run, in
source order: the auth token, the config walk, `createConfigFiles`, the log
walk. -/
def recordedC (fs : FlareFS) : List PathC :=
  authRecorded fs ++ confRecorded fs ++ fs.usedConfigFiles ++ logRecorded fs

/-- The files whose content is copied into the bundle (plus the auth-token
file, which the claim counts as shipped). -/
def shippedC (fs : FlareFS) : List PathC :=
  confCopied fs ++ fs.usedConfigFiles ++ logCopied fs ++ authRecorded fs

/-- Is `a` a (proper, component-wise) ancestor check helper: `a` is an
initial segment of `b`? -/
def isPreB : PathC → PathC → Bool
  | [], _ => true
  | _ :: _, [] => false
  | a :: as, b :: bs => if a = b then isPreB as bs else false

/-- `p` is a strict ancestor directory of `f`. -/
def ancB (p f : PathC) : Bool :=
  isPreB p f && decide (p.length < f.length)

/-- The claim's allowed set: shipped files and their ancestor directories. -/
def allowedC (fs : FlareFS) (p : PathC) : Prop :=
  p ∈ shippedC fs ∨ ∃ f ∈ shippedC fs, ancB p f = true

instance allowedC_dec (fs : FlareFS) (p : PathC) :
    Decidable (allowedC fs p) := by
  unfold allowedC
  infer_instance

theorem isPreB_of_IsPre : ∀ {a b : PathC}, a <+: b → isPreB a b = true := by
  intro a
  induction a with
  | nil => intro b _; rfl
  | cons x as ih =>
    intro b h
    obtain ⟨t, ht⟩ := h
    cases b with
    | nil => simp at ht
    | cons y bs =>
      injection ht with h1 h2
      simp only [isPreB, h1, if_pos]
      exact ih ⟨t, h2⟩

theorem take_pre (k : Nat) (l : PathC) : l.take k <+: l :=
  ⟨l.drop k, l.take_append_drop k⟩

theorem pre_append (a b : PathC) : a <+: a ++ b := ⟨b, rfl⟩

theorem pre_trans {a b c : PathC} (h1 : a <+: b) (h2 : b <+: c) : a <+: c := by
  obtain ⟨t1, ht1⟩ := h1
  obtain ⟨t2, ht2⟩ := h2
  exact ⟨t1 ++ t2, by rw [← List.append_assoc, ht1, ht2]⟩

/-- A path recorded by `addParentPermsC root` is the file `root ++ rel`
itself or a strict ancestor of it. -/
theorem anc_of_addParent {p root : PathC} (rel : PathC)
    (h : p ∈ addParentPermsC root) :
    p = root ++ rel ∨ ancB p (root ++ rel) = true := by
  unfold addParentPermsC at h
  by_cases hr : root = []
  · rw [if_pos hr] at h
    simp only [List.mem_singleton] at h
    subst h
    cases hrel : rel with
    | nil => left; rw [hr]; rfl
    | cons x xs =>
      right
      rw [hr]
      simp only [ancB, List.nil_append, Bool.and_eq_true, decide_eq_true_eq]
      exact ⟨rfl, by simp⟩
  · rw [if_neg hr] at h
    simp only [List.mem_map, List.mem_reverse, List.mem_range] at h
    obtain ⟨k, hk, rfl⟩ := h
    right
    simp only [ancB, Bool.and_eq_true, decide_eq_true_eq]
    constructor
    · exact isPreB_of_IsPre (pre_trans (take_pre k root) (pre_append root rel))
    · rw [List.length_take, List.length_append]
      omega

/-- C6 (amended): every path recorded in the permissions tracker is a shipped
file (config file, used config file, log file, or the auth-token file), an
ancestor directory of a shipped file, or — the one exception to the claim —
an ancestor of the log-file directory, which `writeLogFiles` records whenever
the tracker is already nonempty even if no log file was copied. -/
theorem C6_amended_tracker_invariant :
    ∀ (fs : FlareFS) (p : PathC), p ∈ recordedC fs →
      allowedC fs p ∨ p ∈ addParentPermsC fs.logDir := by
  intro fs p hp
  unfold recordedC at hp
  rw [List.mem_append] at hp
  rcases hp with hp | hp
  · rw [List.mem_append] at hp
    rcases hp with hp | hp
    · rw [List.mem_append] at hp
      rcases hp with hp | hp
      · -- auth token
        left; left
        unfold shippedC
        simp only [List.mem_append]
        exact Or.inr hp
      · -- config walk adds
        unfold confRecorded at hp
        rw [List.mem_flatMap] at hp
        obtain ⟨r, hr, hp⟩ := hp
        rw [List.mem_flatMap] at hp
        obtain ⟨en, hen, hp⟩ := hp
        have hcop : r.root ++ en.rel ∈ confCopied fs := by
          unfold confCopied
          rw [List.mem_flatMap]
          exact ⟨r, hr, List.mem_map.mpr ⟨en, hen, rfl⟩⟩
        have hship : r.root ++ en.rel ∈ shippedC fs := by
          unfold shippedC
          simp only [List.mem_append]
          exact Or.inl (Or.inl (Or.inl hcop))
        rcases List.mem_cons.mp hp with h1 | h1
        · left; left; rw [h1]; exact hship
        · rcases anc_of_addParent en.rel h1 with h2 | h2
          · left; left; rw [h2]; exact hship
          · left; right; exact ⟨r.root ++ en.rel, hship, h2⟩
    · -- createConfigFiles adds
      left; left
      unfold shippedC
      simp only [List.mem_append]
      exact Or.inl (Or.inl (Or.inr hp))
  · -- writeLogFiles adds
    unfold logRecorded at hp
    rw [List.mem_append] at hp
    rcases hp with hp | hp
    · left; left
      unfold shippedC
      simp only [List.mem_append]
      exact Or.inl (Or.inr hp)
    · by_cases hc : authRecorded fs ++ confRecorded fs ++
        fs.usedConfigFiles ++ logCopied fs ≠ []
      · rw [if_pos hc] at hp
        right; exact hp
      · rw [if_neg hc] at hp
        cases hp

/-- The concrete run refuting the original claim: the auth token exists, no
config or log file is copied, yet `writeLogFiles` records the ancestors of
the log directory. -/
def fs0 : FlareFS :=
  { authExists := true
    authPath := ["etc", "datadog-agent", "auth_token"]
    confRoots := []
    usedConfigFiles := []
    logDir := ["var", "log", "datadog"]
    logEntries := [⟨["readme.txt"], "readme.txt".data⟩] }

/-- C6 counterexample: in `fs0` the tracker records `/var/log`, a path of a
filesystem region from which nothing was shipped — it is neither a shipped
file nor an ancestor of one. -/
theorem C6_counterexample :
    ["var", "log"] ∈ recordedC fs0 ∧ ¬ allowedC fs0 ["var", "log"] :=
  ⟨by decide, by decide⟩

/-- Witness for `C6_amended_tracker_invariant` on the concrete run `fs0`. -/
theorem C6_witness :
    ["var", "log"] ∈ recordedC fs0 ∧
    (allowedC fs0 ["var", "log"] ∨
      ["var", "log"] ∈ addParentPermsC fs0.logDir) :=
  ⟨by decide, C6_amended_tracker_invariant fs0 ["var", "log"] (by decide)⟩

/-! ## The `addParentPerms` loop over string paths (C9)

`addParentPerms` walks `parent := filepath.Dir(dirPath)` upwards while
`parent != "."`, adding `parent` and breaking as soon as
`len(Dir(parent)) == len(parent)`.  We model Go's `path/filepath.Dir` for
Unix paths: strip the final path element (keeping the slash), then `Clean`.
`Clean` is embedded by its standard stack semantics: split on `/`, drop empty
and `.` elements, let `..` pop a poppable element (appended `..` elements and
the root are never popped), and rejoin. -/

def isSlash (c : Char) : Bool := c = '/'

/-- Split a path into `/`-separated components. -/
def splitComps : List Char → List (List Char)
  | [] => [[]]
  | c :: rest =>
    match splitComps rest with
    | [] => [[c]]
    | h :: t => if c = '/' then [] :: h :: t else (c :: h) :: t

/-- One element of `Clean`'s processing loop acting on the output stack. -/
def stepStack (rooted : Bool) (st : List (List Char)) (e : List Char) :
    List (List Char) :=
  if e = [] ∨ e = ['.'] then st
  else if e = ['.', '.'] then
    if st ≠ [] ∧ st.getLast? ≠ some ['.', '.'] then st.dropLast
    else if rooted then st
    else st ++ [['.', '.']]
  else st ++ [e]

/-- Rejoin the cleaned components with `/`. -/
def joinComps : List (List Char) → List Char
  | [] => []
  | [e] => e
  | e :: f :: t => e ++ '/' :: joinComps (f :: t)

def renderStack (rooted : Bool) (st : List (List Char)) : List Char :=
  if rooted then '/' :: joinComps st
  else if joinComps st = [] then ['.'] else joinComps st

/-- Go `path.Clean` (Unix). -/
def cleanChars (l : List Char) : List Char :=
  match l with
  | [] => ['.']
  | c :: _ =>
    renderStack (decide (c = '/'))
      ((splitComps l).foldl (stepStack (decide (c = '/'))) [])

/-- Keep the path up to and including its last slash (Go `Dir`'s scan for the
final separator); empty when there is no slash. -/
def keepToLastSlash (l : List Char) : List Char :=
  (l.reverse.dropWhile (fun c => !isSlash c)).reverse

/-- Go `filepath.Dir` for Unix paths. -/
def dirChars (l : List Char) : List Char :=
  cleanChars (keepToLastSlash l)

/-- Weight of a component stack: each element plus one separator. -/
def wsum (st : List (List Char)) : Nat :=
  (st.map (fun e => e.length + 1)).sum

/-- Weight contributed by an input component (empty components are always
skipped and contribute nothing). -/
def contrib (e : List Char) : Nat :=
  if e = [] then 0 else e.length + 1

theorem wsum_nil : wsum [] = 0 := rfl

theorem wsum_cons (e : List Char) (st : List (List Char)) :
    wsum (e :: st) = e.length + 1 + wsum st := by
  simp [wsum]

theorem wsum_append_single (st : List (List Char)) (e : List Char) :
    wsum (st ++ [e]) = wsum st + (e.length + 1) := by
  simp [wsum]

theorem wsum_dropLast_le : ∀ st : List (List Char), wsum st.dropLast ≤ wsum st := by
  intro st
  induction st with
  | nil => simp
  | cons e t ih =>
    cases t with
    | nil => simp [wsum]
    | cons f t' =>
      rw [List.dropLast_cons₂, wsum_cons, wsum_cons]
      omega

theorem step_wsum (b : Bool) (st : List (List Char)) (e : List Char) :
    wsum (stepStack b st e) ≤ wsum st + contrib e := by
  unfold stepStack
  split
  · exact Nat.le_add_right _ _
  · rename_i h0
    split
    · rename_i h2
      split
      · exact le_trans (wsum_dropLast_le st) (Nat.le_add_right _ _)
      · split
        · exact Nat.le_add_right _ _
        · rw [wsum_append_single, h2]
          simp only [contrib]
          split
          · simp_all
          · simp
    · rw [wsum_append_single]
      simp only [contrib]
      split
      · simp_all
      · omega

theorem foldl_wsum (b : Bool) :
    ∀ (comps : List (List Char)) (st : List (List Char)),
      wsum (comps.foldl (stepStack b) st) ≤
        wsum st + (comps.map contrib).sum := by
  intro comps
  induction comps with
  | nil => intro st; simp
  | cons e t ih =>
    intro st
    have h1 := ih (stepStack b st e)
    have h2 := step_wsum b st e
    simp only [List.foldl_cons, List.map_cons, List.sum_cons]
    omega

theorem contrib_sum_le :
    ∀ comps : List (List Char),
      (comps.map contrib).sum ≤ (comps.map (fun e => e.length + 1)).sum := by
  intro comps
  induction comps with
  | nil => simp
  | cons e t ih =>
    simp only [List.map_cons, List.sum_cons]
    have : contrib e ≤ e.length + 1 := by
      unfold contrib; split <;> omega
    omega

theorem splitComps_ne : ∀ l : List Char, splitComps l ≠ [] := by
  intro l
  cases l with
  | nil => simp [splitComps]
  | cons c rest =>
    simp only [splitComps]
    cases hsp : splitComps rest with
    | nil => simp
    | cons h t => by_cases hc : c = '/' <;> simp [hc]

theorem splitComps_cons_eq (c : Char) (rest : List Char) (h : List Char)
    (t : List (List Char)) (hsp : splitComps rest = h :: t) :
    splitComps (c :: rest) =
      if c = '/' then [] :: h :: t else (c :: h) :: t := by
  simp only [splitComps, hsp]

theorem splitComps_sum :
    ∀ l : List Char,
      ((splitComps l).map (fun e => e.length + 1)).sum = l.length + 1 := by
  intro l
  induction l with
  | nil => simp [splitComps, wsum]
  | cons c rest ih =>
    cases hsp : splitComps rest with
    | nil => exact absurd hsp (splitComps_ne rest)
    | cons h t =>
      rw [splitComps_cons_eq c rest h t hsp]
      rw [hsp] at ih
      simp only [List.map_cons, List.sum_cons] at ih
      by_cases hc : c = '/'
      · rw [if_pos hc]
        simp only [List.map_cons, List.sum_cons, List.length_cons,
          List.length_nil]
        omega
      · rw [if_neg hc]
        simp only [List.map_cons, List.sum_cons, List.length_cons]
        omega

theorem splitComps_slash (r : List Char) :
    splitComps ('/' :: r) = [] :: splitComps r := by
  cases hsp : splitComps r with
  | nil => exact absurd hsp (splitComps_ne r)
  | cons h t =>
    rw [splitComps_cons_eq '/' r h t hsp, if_pos rfl]

theorem joinComps_len :
    ∀ st : List (List Char), st ≠ [] →
      (joinComps st).length + 1 = wsum st := by
  intro st
  induction st with
  | nil => intro h; exact absurd rfl h
  | cons e t ih =>
    intro _
    cases t with
    | nil => simp [joinComps, wsum]
    | cons f t' =>
      have := ih (by simp)
      simp only [joinComps, List.length_append, List.length_cons,
        wsum_cons] at this ⊢
      omega

theorem stepStack_nil_comp (b : Bool) (st : List (List Char)) :
    stepStack b st [] = st := by
  simp [stepStack]

theorem cleanChars_len :
    ∀ x : List Char, (cleanChars x).length ≤ max x.length 1 := by
  intro x
  cases x with
  | nil => simp [cleanChars]
  | cons c r =>
    show (renderStack (decide (c = '/'))
      ((splitComps (c :: r)).foldl (stepStack (decide (c = '/'))) [])).length ≤ _
    by_cases hc : c = '/'
    · subst hc
      rw [show (decide (('/' : Char) = '/')) = true from rfl]
      rw [splitComps_slash]
      simp only [List.foldl_cons, stepStack_nil_comp]
      set st := (splitComps r).foldl (stepStack true) [] with hst
      have h1 := foldl_wsum true (splitComps r) []
      rw [← hst, wsum_nil] at h1
      have h2 := contrib_sum_le (splitComps r)
      have h3 := splitComps_sum r
      have hw : wsum st ≤ r.length + 1 := by omega
      unfold renderStack
      rw [if_pos rfl]
      by_cases hste : st = []
      · rw [hste]
        simp [joinComps]
      · have := joinComps_len st hste
        simp only [List.length_cons]
        omega
    · have hdc : decide (c = '/') = false := by simp [hc]
      rw [hdc]
      set st := (splitComps (c :: r)).foldl (stepStack false) [] with hst
      have h1 := foldl_wsum false (splitComps (c :: r)) []
      rw [← hst, wsum_nil] at h1
      have h2 := contrib_sum_le (splitComps (c :: r))
      have h3 := splitComps_sum (c :: r)
      have hw : wsum st ≤ (c :: r).length + 1 := by
        simp only [List.length_cons] at h3 ⊢
        omega
      unfold renderStack
      rw [if_neg (by simp)]
      split
      · simp
      · rename_i hj
        have hste : st ≠ [] := by
          intro h
          rw [h] at hj
          exact hj rfl
        have := joinComps_len st hste
        simp only [List.length_cons] at hw ⊢
        omega

theorem keepToLastSlash_len (l : List Char) :
    (keepToLastSlash l).length ≤ l.length := by
  unfold keepToLastSlash
  rw [List.length_reverse]
  calc (l.reverse.dropWhile fun c => !isSlash c).length
      ≤ l.reverse.length := dropWhile_len_le _ _
    _ = l.length := List.length_reverse l

theorem dirChars_len (q : List Char) :
    (dirChars q).length ≤ max q.length 1 := by
  unfold dirChars
  calc (cleanChars (keepToLastSlash q)).length
      ≤ max (keepToLastSlash q).length 1 := cleanChars_len _
    _ ≤ max q.length 1 := by
        have := keepToLastSlash_len q
        omega

theorem dirChars_nil : dirChars [] = ['.'] := rfl

/-- The loop body of `addParentPerms`, with explicit fuel: while the parent
is not `.`, record it; stop recording after a parent whose own parent has
the same length. -/
def parentLoop : Nat → List Char → List (List Char)
  | 0, _ => []
  | n + 1, parent =>
    if parent = ['.'] then []
    else if (dirChars parent).length = parent.length then [parent]
    else parent :: parentLoop n (dirChars parent)

/-- `addParentPerms(dirPath)`: the list of paths the loop records. -/
def addParentPermsGo (fuel : Nat) (dirPath : List Char) : List (List Char) :=
  parentLoop fuel (dirChars dirPath)

theorem parentLoop_dot : ∀ n, 1 ≤ n → parentLoop n ['.'] = [] := by
  intro n hn
  cases n with
  | zero => omega
  | succ n => simp [parentLoop]

theorem parentLoop_fuel :
    ∀ k p, p.length ≤ k → ∀ n m, p.length + 2 ≤ n → p.length + 2 ≤ m →
      parentLoop n p = parentLoop m p := by
  intro k
  induction k with
  | zero =>
    intro p hp n m hn hm
    have hpe : p = [] := List.eq_nil_of_length_eq_zero (Nat.le_zero.mp hp)
    subst hpe
    obtain ⟨n', rfl⟩ : ∃ n', n = n' + 1 := by
      cases n with
      | zero => omega
      | succ n' => exact ⟨n', rfl⟩
    obtain ⟨m', rfl⟩ : ∃ m', m = m' + 1 := by
      cases m with
      | zero => omega
      | succ m' => exact ⟨m', rfl⟩
    simp only [parentLoop, dirChars_nil]
    rw [if_neg (by simp), if_neg (by simp), if_neg (by simp), if_neg (by simp)]
    rw [parentLoop_dot n' (by omega), parentLoop_dot m' (by omega)]
  | succ k ih =>
    intro p hp n m hn hm
    obtain ⟨n', rfl⟩ : ∃ n', n = n' + 1 := by
      cases n with
      | zero => omega
      | succ n' => exact ⟨n', rfl⟩
    obtain ⟨m', rfl⟩ : ∃ m', m = m' + 1 := by
      cases m with
      | zero => omega
      | succ m' => exact ⟨m', rfl⟩
    simp only [parentLoop]
    by_cases h1 : p = ['.']
    · rw [if_pos h1, if_pos h1]
    · rw [if_neg h1, if_neg h1]
      by_cases h2 : (dirChars p).length = p.length
      · rw [if_pos h2, if_pos h2]
      · rw [if_neg h2, if_neg h2]
        by_cases hpe : p = []
        · subst hpe
          rw [dirChars_nil, parentLoop_dot n' (by omega),
            parentLoop_dot m' (by omega)]
        · have hlen : (dirChars p).length < p.length := by
            have h3 := dirChars_len p
            have h4 : 1 ≤ p.length := by
              cases p with
              | nil => exact absurd rfl hpe
              | cons a b => simp
            omega
          rw [ih (dirChars p) (by omega) n' m' (by omega) (by omega)]

theorem parentLoop_self :
    ∀ n p, 1 ≤ n → p ≠ ['.'] → p ∈ parentLoop n p := by
  intro n p hn hp
  cases n with
  | zero => omega
  | succ n =>
    simp only [parentLoop]
    rw [if_neg hp]
    split
    · exact List.mem_singleton.mpr rfl
    · exact List.mem_cons_self _ _

theorem parentLoop_closed :
    ∀ k p, p.length ≤ k → ∀ n, p.length + 2 ≤ n →
      ∀ q ∈ parentLoop n p,
        dirChars q ∈ parentLoop n p ∨ dirChars q = ['.'] ∨
          (dirChars q).length = q.length := by
  intro k
  induction k with
  | zero =>
    intro p hp n hn q hq
    have hpe : p = [] := List.eq_nil_of_length_eq_zero (Nat.le_zero.mp hp)
    subst hpe
    obtain ⟨n', rfl⟩ : ∃ n', n = n' + 1 := by
      cases n with
      | zero => omega
      | succ n' => exact ⟨n', rfl⟩
    simp only [parentLoop, dirChars_nil] at hq
    rw [if_neg (by simp), if_neg (by simp),
      parentLoop_dot n' (by omega)] at hq
    have hq2 : q = [] := by
      rcases List.mem_cons.mp hq with h | h
      · exact h
      · simp at h
    subst hq2
    right; left
    exact dirChars_nil
  | succ k ih =>
    intro p hp n hn q hq
    obtain ⟨n', rfl⟩ : ∃ n', n = n' + 1 := by
      cases n with
      | zero => omega
      | succ n' => exact ⟨n', rfl⟩
    simp only [parentLoop] at hq ⊢
    by_cases h1 : p = ['.']
    · rw [if_pos h1] at hq
      simp at hq
    · rw [if_neg h1] at hq ⊢
      by_cases h2 : (dirChars p).length = p.length
      · rw [if_pos h2] at hq ⊢
        have hq2 : q = p := List.mem_singleton.mp hq
        subst hq2
        right; right
        exact h2
      · rw [if_neg h2] at hq ⊢
        by_cases hpe : p = []
        · subst hpe
          rw [dirChars_nil, parentLoop_dot n' (by omega)] at hq ⊢
          have hq2 : q = [] := by
            rcases List.mem_cons.mp hq with h | h
            · exact h
            · simp at h
          subst hq2
          right; left
          exact dirChars_nil
        · have hlen : (dirChars p).length < p.length := by
            have h3 := dirChars_len p
            have h4 : 1 ≤ p.length := by
              cases p with
              | nil => exact absurd rfl hpe
              | cons a b => simp
            omega
          rcases List.mem_cons.mp hq with hq2 | hq2
          · subst hq2
            by_cases h5 : dirChars q = ['.']
            · right; left; exact h5
            · left
              exact List.mem_cons_of_mem _
                (parentLoop_self n' (dirChars q) (by omega) h5)
          · rcases ih (dirChars p) (by omega) n' (by omega) q hq2 with
              h6 | h6 | h6
            · left; exact List.mem_cons_of_mem _ h6
            · right; left; exact h6
            · right; right; exact h6

/-- C9: for every input directory path, the `addParentPerms` walk terminates
— its result is independent of the loop fuel once the fuel exceeds the path
length, the loop stopping at `.` , at the filesystem root, or at the
same-length fixed point — and it records the immediate parent and, for every
recorded ancestor, that ancestor's own parent, up to the stopping point. -/
theorem C9_parent_chain :
    ∀ dirPath : List Char,
      (∀ n m, dirPath.length + 3 ≤ n → dirPath.length + 3 ≤ m →
        addParentPermsGo n dirPath = addParentPermsGo m dirPath) ∧
      (dirChars dirPath ≠ ['.'] →
        dirChars dirPath ∈ addParentPermsGo (dirPath.length + 3) dirPath) ∧
      (∀ q ∈ addParentPermsGo (dirPath.length + 3) dirPath,
        dirChars q ∈ addParentPermsGo (dirPath.length + 3) dirPath ∨
          dirChars q = ['.'] ∨ (dirChars q).length = q.length) := by
  intro dirPath
  have hd := dirChars_len dirPath
  refine ⟨?_, ?_, ?_⟩
  · intro n m hn hm
    unfold addParentPermsGo
    exact parentLoop_fuel (dirChars dirPath).length (dirChars dirPath)
      (le_refl _) n m (by omega) (by omega)
  · intro hne
    unfold addParentPermsGo
    exact parentLoop_self (dirPath.length + 3) (dirChars dirPath)
      (by omega) hne
  · intro q hq
    unfold addParentPermsGo at hq ⊢
    exact parentLoop_closed (dirChars dirPath).length (dirChars dirPath)
      (le_refl _) (dirPath.length + 3) (by omega) q hq

/-- Witness for `C9_parent_chain` on the concrete path `/var/log/datadog`:
the walk records `/var/log`, and the recorded ancestor `/var` has its own
parent `/` in the recorded set. -/
theorem C9_witness :
    (dirChars "/var/log/datadog".data ≠ ['.'] ∧
      dirChars "/var/log/datadog".data ∈
        addParentPermsGo ("/var/log/datadog".data.length + 3)
          "/var/log/datadog".data) ∧
    ("/var".data ∈ addParentPermsGo ("/var/log/datadog".data.length + 3)
        "/var/log/datadog".data ∧
      (dirChars "/var".data ∈
          addParentPermsGo ("/var/log/datadog".data.length + 3)
            "/var/log/datadog".data ∨
        dirChars "/var".data = ['.'] ∨
        (dirChars "/var".data).length = "/var".data.length)) :=
  ⟨⟨by decide, (C9_parent_chain "/var/log/datadog".data).2.1 (by decide)⟩,
   ⟨by decide, (C9_parent_chain "/var/log/datadog".data).2.2
      "/var".data (by decide)⟩⟩

end Flare
